import Mathlib

/-!
Verification of the RegularApp finite-automata library.

The development embeds the four source files (`regex.rs`, `nfa.rs`, `dfa.rs`,
`conversions.rs`) shallowly:

* `HashSet<T>` and `BTreeSet<T>` become `Finset T`;
* `HashMap<K, V>` becomes the function `K → Option V` (`none` models an
  absent key); every map the source builds inserts each key at most once,
  so the extensional function view coincides with the built map;
* a Rust `panic!` / failed `expect` / failed `assert!` is modelled by an
  `Option` result (`none`);
* the unbounded worklist loops (`epsilon_closure`, `reachable_states`,
  the subset construction) are given an explicit fuel argument, with
  `none` when the fuel runs out;
* Rust's `HashSet` iteration order is unspecified; wherever the source
  iterates a set we fix the ascending order (`sortedList`), and where the
  iteration order is observable in the result (`relabel_states` zipping
  fresh ids with the hash-ordered reachable set) the enumeration order is
  an explicit parameter of the embedding.
-/

namespace RegularApp

/-- Enumerate a `Finset` in ascending order. This models iterating a Rust
set in one definite order; it uses `insertionSort` so that concrete
instances reduce inside the kernel. -/
def sortedList {α : Type} [LinearOrder α] (s : Finset α) : List α :=
  Quot.liftOn s.val (fun l => l.insertionSort (· ≤ ·)) (fun l₁ l₂ h =>
    List.eq_of_perm_of_sorted
      ((List.perm_insertionSort _ l₁).trans (h.trans (List.perm_insertionSort _ l₂).symm))
      (List.sorted_insertionSort _ l₁) (List.sorted_insertionSort _ l₂))

/-- Generic fueled worklist traversal shared by `Nfa::epsilon_closure`,
`Nfa::reachable_states`, `Dfa::reachable_states` and the subset
construction of `nfa_to_dfa`: pop a node, skip it if already visited,
otherwise record it and push its neighbours. `nbrs a = none` models a
panic while computing the neighbours of `a`; a `none` result models a
panic or fuel exhaustion. The source pushes onto a `VecDeque` used as a
stack; the set of visited nodes does not depend on the stack order. -/
def wlGo {α : Type} [DecidableEq α] (nbrs : α → Option (List α)) :
    Nat → List α → Finset α → Option (Finset α)
  | 0, _, _ => none
  | fuel + 1, stack, visited =>
    match stack with
    | [] => some visited
    | a :: rest =>
      if a ∈ visited then wlGo nbrs fuel rest visited
      else
        match nbrs a with
        | none => none
        | some ns => wlGo nbrs fuel (ns ++ rest) (insert a visited)

/-- One worklist edge: `b` is among the neighbours computed for `a`. -/
def wlStep {α : Type} (nbrs : α → Option (List α)) (a b : α) : Prop :=
  ∃ ns, nbrs a = some ns ∧ b ∈ ns

/-! The DFA engine, translated from `dfa.rs`. -/

/-- Translation of `struct Dfa` (`dfa.rs`): `transitions` models the
`HashMap<(State, Char), State>` as a function into `Option`. -/
structure Dfa (S C : Type) where
  states : Finset S
  alphabet : Finset C
  start_state : S
  transitions : S × C → Option S
  accepting : Finset S

/-- Translation of `Dfa::transition`: the `.expect("Invalid DFA")` panic on a
missing key is modelled by `none`. -/
def Dfa.transition {S C : Type} (d : Dfa S C) (s : S) (c : C) : Option S :=
  d.transitions (s, c)

/-- Translation of `Dfa::validate`: start state membership, totality of the
transition function over `states × alphabet` with targets in `states`, and
`accepting ⊆ states`. -/
def Dfa.validate {S C : Type} [DecidableEq S] [DecidableEq C] (d : Dfa S C) : Bool :=
  decide (d.start_state ∈ d.states) &&
  decide (∀ s ∈ d.states, ∀ c ∈ d.alphabet, ∃ r ∈ d.states, d.transitions (s, c) = some r) &&
  decide (∀ s ∈ d.accepting, s ∈ d.states)

/-- Propositional form of `Dfa::validate` returning `true`. -/
def Dfa.Valid {S C : Type} [DecidableEq S] [DecidableEq C] (d : Dfa S C) : Prop :=
  d.validate = true

instance {S C : Type} [DecidableEq S] [DecidableEq C] (d : Dfa S C) :
    Decidable d.Valid :=
  inferInstanceAs (Decidable (d.validate = true))

/-- The loop body of `Dfa::parse_string`: follow the transition function from
a given state through a string; `none` models the `transition` panic. -/
def Dfa.runFrom {S C : Type} (d : Dfa S C) : S → List C → Option S
  | s, [] => some s
  | s, c :: w =>
    match d.transitions (s, c) with
    | none => none
    | some t => d.runFrom t w

/-- Translation of `Dfa::parse_string`: it walks the transition function and
returns the unit value, never consulting `accepting`. -/
def Dfa.parse_string {S C : Type} (d : Dfa S C) (w : List C) : Option Unit :=
  (d.runFrom d.start_state w).map fun _ => ()

/-- Modelled from the spec: the DFA acceptance query (spec section 8 uses
"`regex_to_dfa(r,Σ)` accepts `w`", and the glossary defines acceptance by the
final state's membership in the accepting set). The code has no such query:
`Dfa::parse_string` returns `()` without consulting `accepting`. This runs
the transition function from the start state and reports membership of the
final state in `accepting`. -/
def Dfa.accepts {S C : Type} [DecidableEq S] (d : Dfa S C) (w : List C) : Option Bool :=
  (d.runFrom d.start_state w).map fun s => decide (s ∈ d.accepting)

/-- The neighbours pushed by one iteration of the `Dfa::reachable_states`
loop: `self.transition(state, char)` for every alphabet symbol; `none`
models the `transition` panic on a missing entry. -/
def dfaNbrs {S C : Type} [LinearOrder C] (d : Dfa S C) (s : S) : Option (List S) :=
  (sortedList d.alphabet).mapM fun c => d.transitions (s, c)

/-- Translation of `Dfa::reachable_states`: worklist search from the start
state following every alphabet symbol. -/
def Dfa.reachable_statesF {S C : Type} [DecidableEq S] [LinearOrder C]
    (fuel : Nat) (d : Dfa S C) : Option (Finset S) :=
  wlGo (dfaNbrs d) fuel [d.start_state] ∅

/-- Translation of `Dfa::is_empty`: no reachable state is accepting. -/
def Dfa.is_emptyF {S C : Type} [DecidableEq S] [LinearOrder C]
    (fuel : Nat) (d : Dfa S C) : Option Bool :=
  (d.reachable_statesF fuel).map fun r => decide (∀ s ∈ r, s ∉ d.accepting)

/-- Translation of `Dfa::is_complete`: every reachable state is accepting. -/
def Dfa.is_completeF {S C : Type} [DecidableEq S] [LinearOrder C]
    (fuel : Nat) (d : Dfa S C) : Option Bool :=
  (d.reachable_statesF fuel).map fun r => decide (∀ s ∈ r, s ∈ d.accepting)

/-- Translation of `Dfa::complement`: the accepting set becomes
`states \ accepting`; every other field is copied. -/
def Dfa.complement {S C : Type} [DecidableEq S] (d : Dfa S C) : Dfa S C :=
  { d with accepting := d.states \ d.accepting }

/-- Translation of `Dfa::product`: `none` models the
`assert!(first.alphabet == second.alphabet)` panic. The transition map built
by the source loop holds exactly the keys in `new_states × alphabet`; a
`transition` panic while filling an entry is modelled by `none` at that
entry. -/
def productDfa {S1 S2 C : Type} [DecidableEq S1] [DecidableEq S2] [DecidableEq C]
    (first : Dfa S1 C) (second : Dfa S2 C) (func : Bool → Bool → Bool) :
    Dfa (S1 × S2) C :=
  { states := first.states ×ˢ second.states
    alphabet := first.alphabet
    start_state := (first.start_state, second.start_state)
    transitions := fun p =>
      if p.1 ∈ first.states ×ˢ second.states ∧ p.2 ∈ first.alphabet then
        match first.transitions (p.1.1, p.2), second.transitions (p.1.2, p.2) with
        | some t1, some t2 => some (t1, t2)
        | _, _ => none
      else none
    accepting := (first.states ×ˢ second.states).filter fun p =>
      func (decide (p.1 ∈ first.accepting)) (decide (p.2 ∈ second.accepting)) = true }

def Dfa.product {S1 S2 C : Type} [DecidableEq S1] [DecidableEq S2] [DecidableEq C]
    (first : Dfa S1 C) (second : Dfa S2 C) (func : Bool → Bool → Bool) :
    Option (Dfa (S1 × S2) C) :=
  if first.alphabet = second.alphabet then some (productDfa first second func)
  else none

/-- Translation of `Dfa::union`: product with boolean or. -/
def Dfa.union {S1 S2 C : Type} [DecidableEq S1] [DecidableEq S2] [DecidableEq C]
    (first : Dfa S1 C) (second : Dfa S2 C) : Option (Dfa (S1 × S2) C) :=
  Dfa.product first second fun a b => a || b

/-- Translation of `Dfa::intersection`: product with boolean and. -/
def Dfa.intersection {S1 S2 C : Type} [DecidableEq S1] [DecidableEq S2] [DecidableEq C]
    (first : Dfa S1 C) (second : Dfa S2 C) : Option (Dfa (S1 × S2) C) :=
  Dfa.product first second fun a b => a && b

/-- Translation of `Dfa::difference`: product with and-not. -/
def Dfa.difference {S1 S2 C : Type} [DecidableEq S1] [DecidableEq S2] [DecidableEq C]
    (first : Dfa S1 C) (second : Dfa S2 C) : Option (Dfa (S1 × S2) C) :=
  Dfa.product first second fun a b => a && !b

/-- Translation of `Dfa::symmetric_difference`: product with xor. -/
def Dfa.symmetric_difference {S1 S2 C : Type} [DecidableEq S1] [DecidableEq S2] [DecidableEq C]
    (first : Dfa S1 C) (second : Dfa S2 C) : Option (Dfa (S1 × S2) C) :=
  Dfa.product first second fun a b => a != b

/-- Translation of `Dfa::equivalent`: emptiness of the symmetric difference. -/
def Dfa.equivalentF {S1 S2 C : Type} [DecidableEq S1] [DecidableEq S2] [LinearOrder C]
    (fuel : Nat) (first : Dfa S1 C) (second : Dfa S2 C) : Option Bool :=
  (Dfa.symmetric_difference first second).bind fun p => p.is_emptyF fuel

/-- Translation of `Dfa::relabel_states`. The source zips fresh ids `0, 1, …`
with the iteration of the `HashSet` returned by `reachable_states()`; that
iteration order is not determined by the automaton, so it is the explicit
parameter `ord` here (a list enumerating the reachable states). The
`.expect` panics (a transition from a reachable to an unreachable state, or
an unreachable start state) are modelled by `none` (per entry for the
transition map, globally for the start state). -/
def Dfa.relabel_states {S C : Type} [DecidableEq S] (d : Dfa S C) (ord : List S) :
    Option (Dfa Nat C) :=
  match ord.findIdx? fun x => decide (x = d.start_state) with
  | none => none
  | some st =>
    some
      { states := Finset.range ord.length
        alphabet := d.alphabet
        start_state := st
        transitions := fun p =>
          (ord[p.1]?).bind fun s =>
            (d.transitions (s, p.2)).bind fun t =>
              ord.findIdx? fun x => decide (x = t)
        accepting := (Finset.range ord.length).filter fun i =>
          (ord[i]?).any (fun s => decide (s ∈ d.accepting)) = true }

/-- Translation of `Dfa::empty` (`impl Dfa<(), Char>`): one non-accepting
state with a self-loop on every alphabet symbol. -/
def Dfa.empty {C : Type} [DecidableEq C] (alphabet : Finset C) : Dfa Unit C :=
  { states := {()}
    alphabet := alphabet
    start_state := ()
    transitions := fun p => if p.2 ∈ alphabet then some () else none
    accepting := ∅ }

/-- Translation of `Dfa::complete`: one accepting state with a self-loop on
every alphabet symbol. -/
def Dfa.complete {C : Type} [DecidableEq C] (alphabet : Finset C) : Dfa Unit C :=
  { states := {()}
    alphabet := alphabet
    start_state := ()
    transitions := fun p => if p.2 ∈ alphabet then some () else none
    accepting := {()} }

/-! The NFA engine, translated from `nfa.rs`. -/

/-- Translation of `struct Nfa` (`nfa.rs`): both maps model Rust `HashMap`s
as functions into `Option` (`none` is an absent key). -/
structure Nfa (S C : Type) where
  states : Finset S
  alphabet : Finset C
  start_state : S
  transitions : S × C → Option (Finset S)
  epsilon_transitions : S → Option (Finset S)
  accepting : Finset S

/-- Translation of `Nfa::transition`: plain map lookup, no panic. -/
def Nfa.transition {S C : Type} (n : Nfa S C) (s : S) (c : C) : Option (Finset S) :=
  n.transitions (s, c)

/-- Translation of `Nfa::validate`. -/
def Nfa.validate {S C : Type} [DecidableEq S] [DecidableEq C] (n : Nfa S C) : Bool :=
  decide (n.start_state ∈ n.states) &&
  decide (∀ s ∈ n.states, ∀ c ∈ n.alphabet,
    (n.transitions (s, c)).all (fun t => decide (∀ x ∈ t, x ∈ n.states)) = true) &&
  decide (∀ s ∈ n.states,
    (n.epsilon_transitions s).all (fun t => decide (∀ x ∈ t, x ∈ n.states)) = true) &&
  decide (∀ s ∈ n.accepting, s ∈ n.states)

/-- Propositional form of `Nfa::validate` returning `true`. -/
def Nfa.Valid {S C : Type} [DecidableEq S] [DecidableEq C] (n : Nfa S C) : Prop :=
  n.validate = true

instance {S C : Type} [DecidableEq S] [DecidableEq C] (n : Nfa S C) :
    Decidable n.Valid :=
  inferInstanceAs (Decidable (n.validate = true))

/-- Translation of `Nfa::epsilon_closure`: worklist traversal of the epsilon
edges starting from a given iterator of states; a state with no entry in the
epsilon map contributes no neighbours. -/
def epsNbrs {S C : Type} [LinearOrder S] (n : Nfa S C) (s : S) : Option (List S) :=
  some (((n.epsilon_transitions s).map sortedList).getD [])

def Nfa.epsilon_closureF {S C : Type} [LinearOrder S] (fuel : Nat) (n : Nfa S C)
    (start : List S) : Option (Finset S) :=
  wlGo (epsNbrs n) fuel start ∅

/-- Translation of `Nfa::reachable_states`: worklist traversal from the start
state following, for each alphabet symbol, the labelled transitions, and the
epsilon transitions. -/
def nfaNbrs {S C : Type} [LinearOrder S] [LinearOrder C] (n : Nfa S C) (s : S) :
    Option (List S) :=
  some
    ((((sortedList n.alphabet).map fun c =>
        ((n.transitions (s, c)).map sortedList).getD []).flatten) ++
      ((n.epsilon_transitions s).map sortedList).getD [])

def Nfa.reachable_statesF {S C : Type} [LinearOrder S] [LinearOrder C]
    (fuel : Nat) (n : Nfa S C) : Option (Finset S) :=
  wlGo (nfaNbrs n) fuel [n.start_state] ∅

/-- Translation of `Nfa::parse_string`: simulate the subset of states,
starting from the epsilon closure of the start state; for each symbol take
the union of the labelled transitions and close under epsilon edges; accept
iff the final subset meets `accepting`. -/
def Nfa.parse_stringF {S C : Type} [LinearOrder S] (fuel : Nat) (n : Nfa S C)
    (w : List C) : Option Bool :=
  ((n.epsilon_closureF fuel [n.start_state]).bind fun init =>
    w.foldlM (fun states c =>
      n.epsilon_closureF fuel
        (sortedList (states.biUnion fun s => (n.transitions (s, c)).getD ∅))) init).map
    fun final => decide (∃ s ∈ final, s ∈ n.accepting)

/-- Translation of `enum StarState`. -/
inductive StarState (S : Type) where
  | Start
  | Old (s : S)
deriving DecidableEq

/-- Order-embedding of `StarState` used to lift a linear order. -/
def StarState.enc {S : Type} : StarState S → Lex (Unit ⊕ S)
  | .Start => toLex (Sum.inl ())
  | .Old s => toLex (Sum.inr s)

instance {S : Type} [LinearOrder S] : LinearOrder (StarState S) :=
  LinearOrder.lift' StarState.enc (by
    intro x y h
    cases x <;> cases y <;> simp [StarState.enc] at h <;> simp [h])

/-- Translation of `Nfa::star`: add a fresh accepting start state with an
epsilon edge to the old start, and an epsilon edge from every old accepting
state back to the old start. -/
def Nfa.star {S C : Type} [DecidableEq S] (n : Nfa S C) : Nfa (StarState S) C :=
  { states := insert StarState.Start (n.states.image StarState.Old)
    alphabet := n.alphabet
    start_state := StarState.Start
    transitions := fun p =>
      match p.1 with
      | .Start => none
      | .Old s => (n.transitions (s, p.2)).map fun t => t.image StarState.Old
    epsilon_transitions := fun q =>
      match q with
      | .Start => some {StarState.Old n.start_state}
      | .Old s =>
        if s ∈ n.accepting then
          some (insert (StarState.Old n.start_state)
            (((n.epsilon_transitions s).getD ∅).image StarState.Old))
        else (n.epsilon_transitions s).map fun t => t.image StarState.Old
    accepting := insert StarState.Start (n.accepting.image StarState.Old) }

/-- Map a finset through a possibly failing function; `none` as soon as one
element fails. Models the `.expect("Invalid NFA")` panics of
`Nfa::relabel_states` pointwise. -/
def mapFinsetOpt {α β : Type} [DecidableEq β] (f : α → Option β) (t : Finset α) :
    Option (Finset β) :=
  if h : ∀ x ∈ t, (f x).isSome then
    some (t.attach.image fun x => (f x.1).get (h x.1 x.2))
  else none

/-- Translation of `Nfa::relabel_states`. As for the DFA version, the source
zips fresh ids with the hash-ordered iteration of `reachable_states()`; the
enumeration order is the explicit parameter `ord`. -/
def Nfa.relabel_states {S C : Type} [DecidableEq S] (n : Nfa S C) (ord : List S) :
    Option (Nfa Nat C) :=
  match ord.findIdx? fun x => decide (x = n.start_state) with
  | none => none
  | some st =>
    some
      { states := Finset.range ord.length
        alphabet := n.alphabet
        start_state := st
        transitions := fun p =>
          (ord[p.1]?).bind fun s =>
            (n.transitions (s, p.2)).bind fun t =>
              mapFinsetOpt (fun x => ord.findIdx? fun y => decide (y = x)) t
        epsilon_transitions := fun i =>
          (ord[i]?).bind fun s =>
            (n.epsilon_transitions s).bind fun t =>
              mapFinsetOpt (fun x => ord.findIdx? fun y => decide (y = x)) t
        accepting := (Finset.range ord.length).filter fun i =>
          (ord[i]?).any (fun s => decide (s ∈ n.accepting)) = true }

/-- Translation of the free function `empty` (`nfa.rs`): one non-accepting
state, no edges. -/
def Nfa.empty {C : Type} (alphabet : Finset C) : Nfa Unit C :=
  { states := {()}
    alphabet := alphabet
    start_state := ()
    transitions := fun _ => none
    epsilon_transitions := fun _ => none
    accepting := ∅ }

/-- Translation of the free function `epsilon`: one accepting state, no
edges. -/
def Nfa.epsilon {C : Type} (alphabet : Finset C) : Nfa Unit C :=
  { states := {()}
    alphabet := alphabet
    start_state := ()
    transitions := fun _ => none
    epsilon_transitions := fun _ => none
    accepting := {()} }

/-- Translation of the free function `character`: `none` models the
`assert!(alphabet.contains(&char))` panic; otherwise two states `false`
(start) and `true` (accepting) with the single labelled transition. -/
def Nfa.character {C : Type} [DecidableEq C] (alphabet : Finset C) (char : C) :
    Option (Nfa Bool C) :=
  if char ∈ alphabet then
    some
      { states := {false, true}
        alphabet := alphabet
        start_state := false
        transitions := fun p => if p.1 = false ∧ p.2 = char then some {true} else none
        epsilon_transitions := fun _ => none
        accepting := {true} }
  else none

/-- Translation of `enum ConcatState`. -/
inductive ConcatState (S1 S2 : Type) where
  | Left (s : S1)
  | Right (s : S2)
deriving DecidableEq

/-- Order-embedding of `ConcatState` used to lift a linear order. -/
def ConcatState.enc {S1 S2 : Type} : ConcatState S1 S2 → Lex (S1 ⊕ S2)
  | .Left s => toLex (Sum.inl s)
  | .Right s => toLex (Sum.inr s)

instance {S1 S2 : Type} [LinearOrder S1] [LinearOrder S2] :
    LinearOrder (ConcatState S1 S2) :=
  LinearOrder.lift' ConcatState.enc (by
    intro x y h
    cases x <;> cases y <;> simp [ConcatState.enc] at h <;> simp [h])

/-- Translation of the free function `concatenation`: `none` models the
alphabet-equality `assert!`; otherwise the tagged disjoint union of the two
automata with an epsilon edge from every left-accepting state to the right
start state. -/
def Nfa.concatenation {S1 S2 C : Type} [DecidableEq S1] [DecidableEq S2] [DecidableEq C]
    (left : Nfa S1 C) (right : Nfa S2 C) : Option (Nfa (ConcatState S1 S2) C) :=
  if left.alphabet = right.alphabet then
    some
      { states := left.states.image ConcatState.Left ∪ right.states.image ConcatState.Right
        alphabet := left.alphabet
        start_state := ConcatState.Left left.start_state
        transitions := fun p =>
          match p.1 with
          | .Left s => (left.transitions (s, p.2)).map fun t => t.image ConcatState.Left
          | .Right s => (right.transitions (s, p.2)).map fun t => t.image ConcatState.Right
        epsilon_transitions := fun q =>
          match q with
          | .Left s =>
            if s ∈ left.accepting then
              some (insert (ConcatState.Right right.start_state)
                (((left.epsilon_transitions s).getD ∅).image ConcatState.Left))
            else (left.epsilon_transitions s).map fun t => t.image ConcatState.Left
          | .Right s => (right.epsilon_transitions s).map fun t => t.image ConcatState.Right
        accepting := right.accepting.image ConcatState.Right }
  else none

/-- Translation of `enum UnionState`. -/
inductive UnionState (S1 S2 : Type) where
  | Start
  | First (s : S1)
  | Second (s : S2)
deriving DecidableEq

/-- Order-embedding of `UnionState` used to lift a linear order. -/
def UnionState.enc {S1 S2 : Type} : UnionState S1 S2 → Lex (Unit ⊕ Lex (S1 ⊕ S2))
  | .Start => toLex (Sum.inl ())
  | .First s => toLex (Sum.inr (toLex (Sum.inl s)))
  | .Second s => toLex (Sum.inr (toLex (Sum.inr s)))

instance {S1 S2 : Type} [LinearOrder S1] [LinearOrder S2] :
    LinearOrder (UnionState S1 S2) :=
  LinearOrder.lift' UnionState.enc (by
    intro x y h
    cases x <;> cases y <;> simp [UnionState.enc] at h <;> simp [h])

/-- Translation of the free function `union` (`nfa.rs`): `none` models the
alphabet-equality `assert!`; otherwise a fresh start state with epsilon edges
to both injected start states. -/
def Nfa.union {S1 S2 C : Type} [DecidableEq S1] [DecidableEq S2] [DecidableEq C]
    (first : Nfa S1 C) (second : Nfa S2 C) : Option (Nfa (UnionState S1 S2) C) :=
  if first.alphabet = second.alphabet then
    some
      { states := insert UnionState.Start
          (first.states.image UnionState.First ∪ second.states.image UnionState.Second)
        alphabet := first.alphabet
        start_state := UnionState.Start
        transitions := fun p =>
          match p.1 with
          | .Start => none
          | .First s => (first.transitions (s, p.2)).map fun t => t.image UnionState.First
          | .Second s => (second.transitions (s, p.2)).map fun t => t.image UnionState.Second
        epsilon_transitions := fun q =>
          match q with
          | .Start => some {UnionState.First first.start_state,
              UnionState.Second second.start_state}
          | .First s => (first.epsilon_transitions s).map fun t => t.image UnionState.First
          | .Second s => (second.epsilon_transitions s).map fun t => t.image UnionState.Second
        accepting := first.accepting.image UnionState.First ∪
          second.accepting.image UnionState.Second }
  else none

/-! The Regex AST and its brute-force matcher, translated from `regex.rs`. -/

/-- Translation of `enum Regex`. -/
inductive Regex (C : Type) where
  | Empty
  | Epsilon
  | Character (c : C)
  | Concat (l r : Regex C)
  | Union (l r : Regex C)
  | Star (r : Regex C)
deriving DecidableEq

/-- The `for i in 0..len+1 { if check(i) { return true } }; false` pattern of
the `Concat` and `Star` arms of `Regex::parse_string`: first split index whose
check returns `true`, short-circuiting; `none` propagates a sub-evaluation
that ran out of fuel. -/
def splitLoop (check : Nat → Option Bool) : List Nat → Option Bool
  | [] => some false
  | i :: rest =>
    match check i with
    | none => none
    | some true => some true
    | some false => splitLoop check rest

/-- Translation of `Regex::parse_string`, with an explicit recursion-depth
fuel: `none` means the source recursion would still be running (it has no
bound on its depth). The boolean operators short-circuit exactly as `&&` and
`||` do in the source: the second operand is not evaluated (and consumes no
fuel) when the first decides the result. -/
def Regex.parse_stringF {C : Type} [DecidableEq C] : Nat → Regex C → List C → Option Bool
  | 0, _, _ => none
  | _ + 1, .Empty, _ => some false
  | _ + 1, .Epsilon, w => some w.isEmpty
  | _ + 1, .Character c, w => some (decide (∀ x ∈ w, x = c) && decide (w.length = 1))
  | f + 1, .Concat l r, w =>
    splitLoop (fun i =>
      (Regex.parse_stringF f l (w.take i)).bind fun bl =>
        if bl then Regex.parse_stringF f r (w.drop i) else some false)
      (List.range (w.length + 1))
  | f + 1, .Union l r, w =>
    (Regex.parse_stringF f l w).bind fun bl =>
      if bl then some true else Regex.parse_stringF f r w
  | f + 1, .Star contents, w =>
    splitLoop (fun i =>
      (Regex.parse_stringF f contents (w.take i)).bind fun bl =>
        if bl then Regex.parse_stringF f (.Star contents) (w.drop i) else some false)
      (List.range (w.length + 1))

/-! Conversions, translated from `conversions.rs`. -/

/-- The per-symbol target of the subset construction: union of the labelled
transitions over the current subset, closed under epsilon edges. This is the
body of the inner `for char in &nfa.alphabet` loop of `nfa_to_dfa`. -/
def dfaStepF {S C : Type} [LinearOrder S] (fuel : Nat) (n : Nfa S C)
    (sub : Finset S) (c : C) : Option (Finset S) :=
  n.epsilon_closureF fuel
    (sortedList (sub.biUnion fun s => (n.transitions (s, c)).getD ∅))

/-- The neighbours pushed by one iteration of the `nfa_to_dfa` worklist:
one subset-construction target per alphabet symbol. -/
def subsetNbrs {S C : Type} [LinearOrder S] [LinearOrder C] (fuel : Nat)
    (n : Nfa S C) (sub : Finset S) : Option (List (Finset S)) :=
  (sortedList n.alphabet).mapM fun c => dfaStepF fuel n sub c

/-- The DFA assembled by `nfa_to_dfa` from the discovered set `v` of subsets:
a subset is accepting iff it meets `nfa.accepting`; the transition map holds
exactly the keys in `v × alphabet`, each mapped to its subset-construction
target. -/
def subsetDfa {S C : Type} [LinearOrder S] [LinearOrder C] (fuel : Nat)
    (n : Nfa S C) (start : Finset S) (v : Finset (Finset S)) : Dfa (Finset S) C :=
  { states := v
    alphabet := n.alphabet
    start_state := start
    transitions := fun p =>
      if p.1 ∈ v ∧ p.2 ∈ n.alphabet then dfaStepF fuel n p.1 p.2 else none
    accepting := v.filter fun sub => decide (∃ s ∈ sub, s ∈ n.accepting) = true }

/-- Translation of `nfa_to_dfa` (subset construction): worklist traversal
over subsets of NFA states starting from the epsilon closure of the start
state. -/
def nfa_to_dfaF {S C : Type} [LinearOrder S] [LinearOrder C] (fuel : Nat)
    (n : Nfa S C) : Option (Dfa (Finset S) C) :=
  (n.epsilon_closureF fuel [n.start_state]).bind fun start =>
    (wlGo (subsetNbrs fuel n) fuel [start] ∅).map fun v =>
      subsetDfa fuel n start v

/-- Colex comparison of finsets, used to enumerate a finset of finsets in a
definite order (the source stores subset-construction states in `BTreeSet`s
and iterates `HashSet`s of them in an unspecified order). -/
abbrev colexLe {S : Type} [LinearOrder S] (a b : Finset S) : Prop :=
  Finset.Colex.toColex a ≤ Finset.Colex.toColex b

instance {S : Type} [LinearOrder S] : IsTrans (Finset S) colexLe :=
  ⟨fun _ _ _ hab hbc => le_trans hab hbc⟩

instance {S : Type} [LinearOrder S] : IsAntisymm (Finset S) colexLe :=
  ⟨fun _ _ hab hba => congrArg Finset.Colex.ofColex (le_antisymm hab hba)⟩

instance {S : Type} [LinearOrder S] : IsTotal (Finset S) colexLe :=
  ⟨fun a b => le_total (Finset.Colex.toColex a) (Finset.Colex.toColex b)⟩

/-- Enumerate a finset of finsets in ascending colex order. -/
def colexSortedList {S : Type} [LinearOrder S] (r : Finset (Finset S)) :
    List (Finset S) :=
  Quot.liftOn r.val (fun l => l.insertionSort colexLe) (fun l₁ l₂ h =>
    List.eq_of_perm_of_sorted
      ((List.perm_insertionSort _ l₁).trans (h.trans (List.perm_insertionSort _ l₂).symm))
      (List.sorted_insertionSort _ l₁) (List.sorted_insertionSort _ l₂))

/-- The `.relabel_states()` calls of the conversion pipeline, with the
unspecified hash iteration order of the reachable set instantiated to
ascending order. -/
def relabelNfaF {S C : Type} [LinearOrder S] [LinearOrder C] (fuel : Nat)
    (n : Nfa S C) : Option (Nfa Nat C) :=
  (n.reachable_statesF fuel).bind fun r => n.relabel_states (sortedList r)

/-- Translation of `regex_to_nfa`: structural Thompson construction, with
each intermediate automaton relabelled to integer states. -/
def regex_to_nfaF {C : Type} [LinearOrder C] (fuel : Nat) :
    Regex C → Finset C → Option (Nfa Nat C)
  | .Empty, alphabet => relabelNfaF fuel (Nfa.empty alphabet)
  | .Epsilon, alphabet => relabelNfaF fuel (Nfa.epsilon alphabet)
  | .Character c, alphabet => (Nfa.character alphabet c).bind fun n => relabelNfaF fuel n
  | .Concat l r, alphabet =>
    (regex_to_nfaF fuel l alphabet).bind fun ln =>
      (regex_to_nfaF fuel r alphabet).bind fun rn =>
        (Nfa.concatenation ln rn).bind fun n => relabelNfaF fuel n
  | .Union l r, alphabet =>
    (regex_to_nfaF fuel l alphabet).bind fun ln =>
      (regex_to_nfaF fuel r alphabet).bind fun rn =>
        (Nfa.union ln rn).bind fun n => relabelNfaF fuel n
  | .Star contents, alphabet =>
    (regex_to_nfaF fuel contents alphabet).bind fun cn => relabelNfaF fuel cn.star

/-- Translation of `regex_to_dfa`: `regex_to_nfa`, subset construction, then
relabelling (with the colex enumeration standing for the unspecified hash
iteration order of the reachable subsets). -/
def regex_to_dfaF {C : Type} [LinearOrder C] (fuel : Nat) (regex : Regex C)
    (alphabet : Finset C) : Option (Dfa Nat C) :=
  (regex_to_nfaF fuel regex alphabet).bind fun n =>
    (nfa_to_dfaF fuel n).bind fun d =>
      (d.reachable_statesF fuel).bind fun r => d.relabel_states (colexSortedList r)

/-! Example automata used to witness the claim theorems on concrete inputs. -/

/-- Example DFA over alphabet `{0}` accepting the nonempty strings: states
`5` (start) and `7` (accepting), with `5 -0-> 7` and `7 -0-> 7`. -/
def exDfa : Dfa Nat Nat :=
  { states := {5, 7}
    alphabet := {0}
    start_state := 5
    transitions := fun p =>
      if p.1 = 5 ∧ p.2 = 0 then some 7
      else if p.1 = 7 ∧ p.2 = 0 then some 7 else none
    accepting := {7} }

/-- Example NFA over alphabet `{0}` accepting exactly the string `[0]`. -/
def exNfa : Nfa Nat Nat :=
  { states := {0, 1}
    alphabet := {0}
    start_state := 0
    transitions := fun p => if p = (0, 0) then some {1} else none
    epsilon_transitions := fun _ => none
    accepting := {1} }

/-- The record built by `Dfa::relabel_states` once the start state is found
at position `st` of the enumeration. -/
def relabeledDfa {S C : Type} [DecidableEq S] (d : Dfa S C) (ord : List S)
    (st : Nat) : Dfa Nat C :=
  { states := Finset.range ord.length
    alphabet := d.alphabet
    start_state := st
    transitions := fun p =>
      (ord[p.1]?).bind fun s =>
        (d.transitions (s, p.2)).bind fun t =>
          ord.findIdx? fun x => decide (x = t)
    accepting := (Finset.range ord.length).filter fun i =>
      (ord[i]?).any (fun s => decide (s ∈ d.accepting)) = true }

/-- The record built by `Nfa::relabel_states` once the start state is found
at position `st` of the enumeration. -/
def relabeledNfa {S C : Type} [DecidableEq S] (n : Nfa S C) (ord : List S)
    (st : Nat) : Nfa Nat C :=
  { states := Finset.range ord.length
    alphabet := n.alphabet
    start_state := st
    transitions := fun p =>
      (ord[p.1]?).bind fun s =>
        (n.transitions (s, p.2)).bind fun t =>
          mapFinsetOpt (fun x => ord.findIdx? fun y => decide (y = x)) t
    epsilon_transitions := fun i =>
      (ord[i]?).bind fun s =>
        (n.epsilon_transitions s).bind fun t =>
          mapFinsetOpt (fun x => ord.findIdx? fun y => decide (y = x)) t
    accepting := (Finset.range ord.length).filter fun i =>
      (ord[i]?).any (fun s => decide (s ∈ n.accepting)) = true }

/-- Reachability along epsilon edges, the semantic content of
`Nfa::epsilon_closure`. -/
def EpsReach {S C : Type} (n : Nfa S C) : S → S → Prop :=
  Relation.ReflTransGen fun u v => v ∈ (n.epsilon_transitions u).getD ∅

/-- Default value used to extract concrete subset-construction DFAs from
options in witnesses. -/
def junkSubsetDfa : Dfa (Finset Nat) Nat :=
  { states := {∅}
    alphabet := ∅
    start_state := ∅
    transitions := fun _ => none
    accepting := ∅ }

theorem sortedList_perm {α : Type} [LinearOrder α] (s : Finset α) :
    (sortedList s : Multiset α) = s.val := by
  rcases s with ⟨m, hm⟩
  induction m using Quot.inductionOn with
  | h l => exact Quot.sound (List.perm_insertionSort _ l)

theorem mem_sortedList {α : Type} [LinearOrder α] (s : Finset α) (a : α) :
    a ∈ sortedList s ↔ a ∈ s := by
  have h := sortedList_perm s
  constructor
  · intro hmem
    exact Finset.mem_def.mpr (h ▸ Multiset.mem_coe.mpr hmem)
  · intro hmem
    exact Multiset.mem_coe.mp (h ▸ Finset.mem_def.mp hmem)

theorem nodup_sortedList {α : Type} [LinearOrder α] (s : Finset α) :
    (sortedList s).Nodup := by
  have h := sortedList_perm s
  have := s.nodup
  rw [← h] at this
  exact this

theorem toFinset_sortedList {α : Type} [DecidableEq α] [LinearOrder α] (s : Finset α) :
    (sortedList s).toFinset = s := by
  ext a
  simp [List.mem_toFinset, mem_sortedList]

theorem length_sortedList {α : Type} [LinearOrder α] (s : Finset α) :
    (sortedList s).length = s.card := by
  have h := sortedList_perm s
  have := congrArg Multiset.card h
  simpa using this

theorem wlGo_visited_subset {α : Type} [DecidableEq α] (nbrs : α → Option (List α))
    (fuel : Nat) :
    ∀ (stack : List α) (visited V : Finset α),
      wlGo nbrs fuel stack visited = some V → visited ⊆ V := by
  induction fuel with
  | zero => intro stack visited V h; simp [wlGo] at h
  | succ f ih =>
    intro stack visited V h
    cases stack with
    | nil =>
      simp [wlGo] at h
      exact h ▸ Finset.Subset.refl _
    | cons a rest =>
      simp only [wlGo] at h
      by_cases hv : a ∈ visited
      · rw [if_pos hv] at h
        exact ih rest visited V h
      · rw [if_neg hv] at h
        cases hns : nbrs a with
        | none => rw [hns] at h; simp at h
        | some ns =>
          rw [hns] at h
          exact (Finset.subset_insert a visited).trans (ih _ _ _ h)

theorem wlGo_stack_subset {α : Type} [DecidableEq α] (nbrs : α → Option (List α))
    (fuel : Nat) :
    ∀ (stack : List α) (visited V : Finset α),
      wlGo nbrs fuel stack visited = some V → ∀ a ∈ stack, a ∈ V := by
  induction fuel with
  | zero => intro stack visited V h; simp [wlGo] at h
  | succ f ih =>
    intro stack visited V h
    cases stack with
    | nil => intro a ha; simp at ha
    | cons a rest =>
      simp only [wlGo] at h
      by_cases hv : a ∈ visited
      · rw [if_pos hv] at h
        intro b hb
        rcases List.mem_cons.mp hb with rfl | hb
        · exact wlGo_visited_subset nbrs f rest visited V h hv
        · exact ih rest visited V h b hb
      · rw [if_neg hv] at h
        cases hns : nbrs a with
        | none => rw [hns] at h; simp at h
        | some ns =>
          rw [hns] at h
          intro b hb
          rcases List.mem_cons.mp hb with rfl | hb
          · exact wlGo_visited_subset nbrs f _ _ V h (Finset.mem_insert_self b visited)
          · exact ih _ _ _ h b (List.mem_append_right ns hb)

theorem wlGo_closed {α : Type} [DecidableEq α] (nbrs : α → Option (List α))
    (fuel : Nat) :
    ∀ (stack : List α) (visited V : Finset α),
      (∀ a ∈ visited, ∀ b, wlStep nbrs a b → b ∈ visited ∨ b ∈ stack) →
      wlGo nbrs fuel stack visited = some V →
      ∀ a ∈ V, ∀ b, wlStep nbrs a b → b ∈ V := by
  induction fuel with
  | zero => intro stack visited V _ h; simp [wlGo] at h
  | succ f ih =>
    intro stack visited V hinv h
    cases stack with
    | nil =>
      simp [wlGo] at h
      subst h
      intro a ha b hb
      rcases hinv a ha b hb with h' | h'
      · exact h'
      · simp at h'
    | cons a rest =>
      simp only [wlGo] at h
      by_cases hv : a ∈ visited
      · rw [if_pos hv] at h
        refine ih rest visited V ?_ h
        intro x hx b hb
        rcases hinv x hx b hb with h' | h'
        · exact Or.inl h'
        · rcases List.mem_cons.mp h' with rfl | h''
          · exact Or.inl hv
          · exact Or.inr h''
      · rw [if_neg hv] at h
        cases hns : nbrs a with
        | none => rw [hns] at h; simp at h
        | some ns =>
          rw [hns] at h
          refine ih _ _ V ?_ h
          intro x hx b hb
          rcases Finset.mem_insert.mp hx with rfl | hx'
          · rcases hb with ⟨ns', hns', hbns⟩
            rw [hns] at hns'
            exact Or.inr (List.mem_append_left rest ((Option.some.injEq _ _).mp hns' ▸ hbns))
          · rcases hinv x hx' b hb with h' | h'
            · exact Or.inl (Finset.mem_insert_of_mem h')
            · rcases List.mem_cons.mp h' with rfl | h''
              · exact Or.inl (Finset.mem_insert_self b visited)
              · exact Or.inr (List.mem_append_right ns h'')

theorem wlGo_nbrs_some {α : Type} [DecidableEq α] (nbrs : α → Option (List α))
    (fuel : Nat) :
    ∀ (stack : List α) (visited V : Finset α),
      (∀ a ∈ visited, (nbrs a).isSome) →
      wlGo nbrs fuel stack visited = some V →
      ∀ a ∈ V, (nbrs a).isSome := by
  induction fuel with
  | zero => intro stack visited V _ h; simp [wlGo] at h
  | succ f ih =>
    intro stack visited V hinv h
    cases stack with
    | nil =>
      simp [wlGo] at h
      subst h
      exact hinv
    | cons a rest =>
      simp only [wlGo] at h
      by_cases hv : a ∈ visited
      · rw [if_pos hv] at h
        exact ih rest visited V hinv h
      · rw [if_neg hv] at h
        cases hns : nbrs a with
        | none => rw [hns] at h; simp at h
        | some ns =>
          rw [hns] at h
          refine ih _ _ V ?_ h
          intro x hx
          rcases Finset.mem_insert.mp hx with rfl | hx'
          · simp [hns]
          · exact hinv x hx'

theorem wlGo_sound {α : Type} [DecidableEq α] (nbrs : α → Option (List α))
    (fuel : Nat) :
    ∀ (stack : List α) (visited V : Finset α),
      wlGo nbrs fuel stack visited = some V →
      ∀ x ∈ V, x ∈ visited ∨ ∃ a ∈ stack, Relation.ReflTransGen (wlStep nbrs) a x := by
  induction fuel with
  | zero => intro stack visited V h; simp [wlGo] at h
  | succ f ih =>
    intro stack visited V h
    cases stack with
    | nil =>
      simp [wlGo] at h
      subst h
      intro x hx
      exact Or.inl hx
    | cons a rest =>
      simp only [wlGo] at h
      by_cases hv : a ∈ visited
      · rw [if_pos hv] at h
        intro x hx
        rcases ih rest visited V h x hx with h' | ⟨a', ha', hr⟩
        · exact Or.inl h'
        · exact Or.inr ⟨a', List.mem_cons_of_mem a ha', hr⟩
      · rw [if_neg hv] at h
        cases hns : nbrs a with
        | none => rw [hns] at h; simp at h
        | some ns =>
          rw [hns] at h
          intro x hx
          rcases ih _ _ V h x hx with h' | ⟨a', ha', hr⟩
          · rcases Finset.mem_insert.mp h' with rfl | h''
            · exact Or.inr ⟨x, List.mem_cons_self x rest, Relation.ReflTransGen.refl⟩
            · exact Or.inl h''
          · rcases List.mem_append.mp ha' with h'' | h''
            · exact Or.inr ⟨a, List.mem_cons_self a rest,
                Relation.ReflTransGen.head ⟨ns, hns, h''⟩ hr⟩
            · exact Or.inr ⟨a', List.mem_cons_of_mem a h'', hr⟩

theorem wlGo_complete {α : Type} [DecidableEq α] (nbrs : α → Option (List α))
    (fuel : Nat) (stack : List α) (V : Finset α)
    (h : wlGo nbrs fuel stack ∅ = some V) :
    ∀ a ∈ stack, ∀ x, Relation.ReflTransGen (wlStep nbrs) a x → x ∈ V := by
  intro a ha x hx
  induction hx with
  | refl => exact wlGo_stack_subset nbrs fuel stack ∅ V h a ha
  | tail _ hbc ihb =>
    exact wlGo_closed nbrs fuel stack ∅ V (by simp) h _ ihb _ hbc

theorem Dfa.valid_iff {S C : Type} [DecidableEq S] [DecidableEq C] (d : Dfa S C) :
    d.Valid ↔ d.start_state ∈ d.states ∧
      (∀ s ∈ d.states, ∀ c ∈ d.alphabet, ∃ r ∈ d.states, d.transitions (s, c) = some r) ∧
      ∀ s ∈ d.accepting, s ∈ d.states := by
  simp [Dfa.Valid, Dfa.validate, and_assoc]

/-- Extract the `some` form of a concrete option from a boolean `isSome`
check. -/
theorem option_eq_some_getD {α : Type} (o : Option α) (d : α) (h : o.isSome = true) :
    o = some (o.getD d) := by
  cases o
  · simp at h
  · rfl

theorem runFrom_accepting_irrel {S C : Type} (d : Dfa S C) (acc : Finset S)
    (s : S) (w : List C) :
    Dfa.runFrom { d with accepting := acc } s w = d.runFrom s w := by
  induction w generalizing s with
  | nil => rfl
  | cons c w ih =>
    rw [Dfa.runFrom, Dfa.runFrom]
    cases d.transitions (s, c) with
    | none => rfl
    | some t => exact ih t

/-- C2: `Dfa::parse_string` returns the unit value and is independent of the
accepting set: replacing `accepting` by anything leaves its result unchanged,
and whenever it returns a value that value is `()`. -/
theorem claim_C2 {S C : Type} (d : Dfa S C) (acc : Finset S) (w : List C) :
    Dfa.parse_string { d with accepting := acc } w = d.parse_string w ∧
    ∀ u, d.parse_string w = some u → u = () := by
  constructor
  · unfold Dfa.parse_string
    rw [runFrom_accepting_irrel]
  · intro u _
    rfl

theorem claim_C2_witness :
    Dfa.parse_string { exDfa with accepting := ∅ } [0] = exDfa.parse_string [0] ∧
    ∀ u, exDfa.parse_string [0] = some u → u = () :=
  claim_C2 exDfa ∅ [0]

/-- C4: the `Star` arm of `Regex::parse_string` tries the zero-length split
first and then recurses on the identical string through the same `Star`
node; on `Star(Epsilon)` (whose body accepts the empty string) the recursion
never terminates: the fuelled evaluation returns `none` for every fuel and
every input string. -/
theorem claim_C4 {C : Type} [DecidableEq C] (fuel : Nat) (w : List C) :
    Regex.parse_stringF fuel (Regex.Star Regex.Epsilon) w = none := by
  induction fuel generalizing w with
  | zero => rfl
  | succ f ih =>
    rw [Regex.parse_stringF, List.range_succ_eq_map, splitLoop]
    cases f with
    | zero => rfl
    | succ f2 =>
      simp only [List.take_zero, List.drop_zero]
      have h1 : Regex.parse_stringF (f2 + 1) Regex.Epsilon ([] : List C) = some true := rfl
      rw [h1, ih w]
      rfl

/-- C10: the contract checks are performed before any state of the result is
built: `character` fails when its symbol is not in the alphabet, and the NFA
`concatenation` and `union` and the DFA `product` fail when the operand
alphabets differ; in each case the result is `none`, never an automaton. -/
theorem claim_C10 {S1 S2 C : Type} [DecidableEq S1] [DecidableEq S2] [DecidableEq C]
    (a : Nfa S1 C) (b : Nfa S2 C) (x : Dfa S1 C) (y : Dfa S2 C)
    (alphabet : Finset C) (c : C) (func : Bool → Bool → Bool) :
    (c ∉ alphabet → Nfa.character alphabet c = none) ∧
    (a.alphabet ≠ b.alphabet → Nfa.concatenation a b = none) ∧
    (a.alphabet ≠ b.alphabet → Nfa.union a b = none) ∧
    (x.alphabet ≠ y.alphabet → Dfa.product x y func = none) := by
  refine ⟨fun h => ?_, fun h => ?_, fun h => ?_, fun h => ?_⟩
  · simp [Nfa.character, h]
  · simp [Nfa.concatenation, h]
  · simp [Nfa.union, h]
  · simp [Dfa.product, h]

theorem claim_C10_witness :
    Nfa.character ({0} : Finset Nat) 1 = none ∧
    Nfa.concatenation { exNfa with alphabet := {0, 1} } exNfa = none ∧
    Nfa.union { exNfa with alphabet := {0, 1} } exNfa = none ∧
    Dfa.product { exDfa with alphabet := {0, 1} } exDfa (fun a b => a || b) = none := by
  have h := claim_C10 { exNfa with alphabet := ({0, 1} : Finset Nat) } exNfa
    { exDfa with alphabet := ({0, 1} : Finset Nat) } exDfa ({0} : Finset Nat) 1
    (fun a b => a || b)
  exact ⟨h.1 (by decide), h.2.1 (by decide), h.2.2.1 (by decide), h.2.2.2 (by decide)⟩

/-! Helper lemmas about `mapM` over `Option` and `findIdx?` on duplicate-free
lists, used by the relabelling and reachability proofs. -/

theorem mapM_option_spec {α β : Type} (f : α → Option β) (l : List α) :
    ∀ ns, l.mapM f = some ns →
      (∀ b ∈ ns, ∃ a ∈ l, f a = some b) ∧ (∀ a ∈ l, ∃ b ∈ ns, f a = some b) := by
  induction l with
  | nil =>
    intro ns h
    rw [List.mapM_nil] at h
    cases h
    exact ⟨by simp, by simp⟩
  | cons a l ih =>
    intro ns h
    rw [List.mapM_cons] at h
    cases hfa : f a with
    | none => rw [hfa] at h; cases h
    | some b =>
      rw [hfa] at h
      cases hml : l.mapM f with
      | none => rw [hml] at h; cases h
      | some bs =>
        rw [hml] at h
        cases h
        obtain ⟨h1, h2⟩ := ih bs hml
        constructor
        · intro x hx
          rcases List.mem_cons.mp hx with rfl | hx
          · exact ⟨a, List.mem_cons_self a l, hfa⟩
          · obtain ⟨a', ha', hfa'⟩ := h1 x hx
            exact ⟨a', List.mem_cons_of_mem a ha', hfa'⟩
        · intro x hx
          rcases List.mem_cons.mp hx with rfl | hx
          · exact ⟨b, List.mem_cons_self b bs, hfa⟩
          · obtain ⟨b', hb', hfb'⟩ := h2 x hx
            exact ⟨b', List.mem_cons_of_mem b hb', hfb'⟩

theorem idx_mem_some {α : Type} [DecidableEq α] (l : List α) (s : α) (h : s ∈ l) :
    ∃ i, (l.findIdx? fun x => decide (x = s)) = some i ∧ l[i]? = some s ∧
      i < l.length := by
  have h1 := List.findIdx?_eq_some_of_exists (p := fun x => decide (x = s))
    ⟨s, h, by simp⟩
  obtain ⟨hlt, hp, -⟩ := List.findIdx?_eq_some_iff_getElem.mp h1
  refine ⟨_, h1, ?_, hlt⟩
  have hs : l[List.findIdx (fun x => decide (x = s)) l] = s := by simpa using hp
  rw [List.getElem?_eq_getElem hlt, hs]

theorem idx_getElem_some {α : Type} [DecidableEq α] (l : List α) (hnd : l.Nodup)
    (i : Nat) (s : α) (h : l[i]? = some s) :
    (l.findIdx? fun x => decide (x = s)) = some i := by
  rw [List.getElem?_eq_some] at h
  obtain ⟨hlt, hs⟩ := h
  refine List.findIdx?_eq_some_iff_getElem.mpr ⟨hlt, by simp [hs], ?_⟩
  intro j hj
  have hne : l[j] ≠ l[i] := by
    have := List.pairwise_iff_getElem.mp hnd j i (Nat.lt_trans hj hlt) hlt hj
    exact this
  simp only [Bool.not_eq_true, decide_eq_false_iff_not]
  exact fun heq => hne (heq.trans hs.symm)

/-- Unfolding of `Dfa::relabel_states` when the start state occurs in the
enumeration. -/
theorem dfa_relabel_states_eq {S C : Type} [DecidableEq S] (d : Dfa S C)
    (ord : List S) (st : Nat)
    (hst : (ord.findIdx? fun x => decide (x = d.start_state)) = some st) :
    d.relabel_states ord = some (relabeledDfa d ord st) := by
  unfold Dfa.relabel_states relabeledDfa
  rw [hst]

/-- Unfolding of `Nfa::relabel_states` when the start state occurs in the
enumeration. -/
theorem nfa_relabel_states_eq {S C : Type} [DecidableEq S] (n : Nfa S C)
    (ord : List S) (st : Nat)
    (hst : (ord.findIdx? fun x => decide (x = n.start_state)) = some st) :
    n.relabel_states ord = some (relabeledNfa n ord st) := by
  unfold Nfa.relabel_states relabeledNfa
  rw [hst]

/-- C9 (amended): each operation is a function of its inputs together with
the hash-container iteration order; for `relabel_states` on both DFAs and
NFAs, given any enumeration of the reachable-state set computed by
`reachable_states()`, the relabelling succeeds and its state ids are exactly
`0..n` where `n` is the number of reachable states — but which id a state
receives depends on the enumeration order, which the automaton does not
determine. -/
theorem claim_C9 {S C : Type} [LinearOrder S] [LinearOrder C] (d : Dfa S C)
    (m : Nfa S C) (fuel : Nat) (r rm : Finset S) (ord ordm : List S)
    (hr : d.reachable_statesF fuel = some r) (hnd : ord.Nodup)
    (hord : ord.toFinset = r)
    (hrm : m.reachable_statesF fuel = some rm) (hndm : ordm.Nodup)
    (hordm : ordm.toFinset = rm) :
    (∃ d2, d.relabel_states ord = some d2 ∧ d2.states = Finset.range r.card) ∧
    ∃ n2, m.relabel_states ordm = some n2 ∧ n2.states = Finset.range rm.card := by
  constructor
  · have hstart : d.start_state ∈ r :=
      wlGo_stack_subset (dfaNbrs d) fuel _ ∅ r hr d.start_state (by simp)
    have hmem : d.start_state ∈ ord := by
      rw [← hord] at hstart
      exact List.mem_toFinset.mp hstart
    obtain ⟨i, hi, -, -⟩ := idx_mem_some ord d.start_state hmem
    refine ⟨_, dfa_relabel_states_eq d ord i hi, ?_⟩
    show Finset.range ord.length = Finset.range r.card
    rw [← hord, List.toFinset_card_of_nodup hnd]
  · have hstart : m.start_state ∈ rm :=
      wlGo_stack_subset (nfaNbrs m) fuel _ ∅ rm hrm m.start_state (by simp)
    have hmem : m.start_state ∈ ordm := by
      rw [← hordm] at hstart
      exact List.mem_toFinset.mp hstart
    obtain ⟨i, hi, -, -⟩ := idx_mem_some ordm m.start_state hmem
    refine ⟨_, nfa_relabel_states_eq m ordm i hi, ?_⟩
    show Finset.range ordm.length = Finset.range rm.card
    rw [← hordm, List.toFinset_card_of_nodup hndm]

theorem claim_C9_witness :
    (∃ d2, exDfa.relabel_states (sortedList ((exDfa.reachable_statesF 50).getD ∅))
        = some d2 ∧
      d2.states = Finset.range ((exDfa.reachable_statesF 50).getD ∅).card) ∧
    ∃ n2, exNfa.relabel_states (sortedList ((exNfa.reachable_statesF 50).getD ∅))
        = some n2 ∧
      n2.states = Finset.range ((exNfa.reachable_statesF 50).getD ∅).card :=
  claim_C9 exDfa exNfa 50 _ _ _ _ (option_eq_some_getD _ ∅ (by decide))
    (nodup_sortedList _) (toFinset_sortedList _)
    (option_eq_some_getD _ ∅ (by decide))
    (nodup_sortedList _) (toFinset_sortedList _)

/-- C9 (counterexample): the two lists below both enumerate the reachable
set that `reachable_states()` computes for `exDfa` (they are duplicate-free
and have the same elements), as a per-run hash iteration may produce either;
yet `relabel_states` gives the start state the id `0` under one and `1`
under the other, so the ids assigned are not a function of the automaton
alone. -/
theorem claim_C9_counterexample :
    exDfa.reachable_statesF 50 = some ((exDfa.reachable_statesF 50).getD ∅) ∧
    (sortedList ((exDfa.reachable_statesF 50).getD ∅)).Nodup ∧
    (sortedList ((exDfa.reachable_statesF 50).getD ∅)).toFinset =
      (exDfa.reachable_statesF 50).getD ∅ ∧
    (sortedList ((exDfa.reachable_statesF 50).getD ∅)).reverse.Nodup ∧
    (sortedList ((exDfa.reachable_statesF 50).getD ∅)).reverse.toFinset =
      (exDfa.reachable_statesF 50).getD ∅ ∧
    (exDfa.relabel_states (sortedList ((exDfa.reachable_statesF 50).getD ∅))).map
        Dfa.start_state ≠
      (exDfa.relabel_states
          ((sortedList ((exDfa.reachable_statesF 50).getD ∅)).reverse)).map
        Dfa.start_state := by
  refine ⟨option_eq_some_getD _ ∅ (by decide), nodup_sortedList _,
    toFinset_sortedList _, List.nodup_reverse.mpr (nodup_sortedList _), ?_, ?_⟩
  · rw [List.toFinset_reverse]
    exact toFinset_sortedList _
  · decide

theorem idx_some_getElem {α : Type} [DecidableEq α] (l : List α) (i : Nat) (s : α)
    (h : (l.findIdx? fun x => decide (x = s)) = some i) : l[i]? = some s := by
  obtain ⟨hlt, hp, -⟩ := List.findIdx?_eq_some_iff_getElem.mp h
  have hs : l[i] = s := by simpa using hp
  rw [List.getElem?_eq_getElem hlt, hs]

theorem dfaNbrs_step {S C : Type} [LinearOrder C] (d : Dfa S C) (a b : S)
    (h : wlStep (dfaNbrs d) a b) : ∃ c ∈ d.alphabet, d.transitions (a, c) = some b := by
  obtain ⟨ns, hns, hb⟩ := h
  obtain ⟨c, hc, hfc⟩ := (mapM_option_spec _ _ ns hns).1 b hb
  exact ⟨c, (mem_sortedList _ _).mp hc, hfc⟩

theorem dfaNbrs_step_of {S C : Type} [LinearOrder C] (d : Dfa S C) (a b : S) (c : C)
    (hsome : (dfaNbrs d a).isSome) (hc : c ∈ d.alphabet)
    (ht : d.transitions (a, c) = some b) : wlStep (dfaNbrs d) a b := by
  obtain ⟨ns, hns⟩ := Option.isSome_iff_exists.mp hsome
  obtain ⟨b', hb', hfb'⟩ := (mapM_option_spec _ _ ns hns).2 c ((mem_sortedList _ _).mpr hc)
  rw [ht] at hfb'
  cases hfb'
  exact ⟨ns, hns, hb'⟩

theorem Dfa.runFrom_append {S C : Type} (d : Dfa S C) (s : S) (w1 w2 : List C) :
    d.runFrom s (w1 ++ w2) = (d.runFrom s w1).bind fun t => d.runFrom t w2 := by
  induction w1 generalizing s with
  | nil => rfl
  | cons c w1 ih =>
    rw [List.cons_append, Dfa.runFrom, Dfa.runFrom]
    cases d.transitions (s, c) with
    | none => rfl
    | some t => exact ih t

/-- Under validity, running a word over the alphabet from a state of the
automaton stays inside `states` and never panics. -/
theorem Dfa.valid_runFrom {S C : Type} [DecidableEq S] [DecidableEq C] (d : Dfa S C)
    (hv : d.Valid) : ∀ (w : List C), (∀ c ∈ w, c ∈ d.alphabet) →
      ∀ s ∈ d.states, ∃ t ∈ d.states, d.runFrom s w = some t := by
  obtain ⟨-, htot, -⟩ := (Dfa.valid_iff d).mp hv
  intro w
  induction w with
  | nil => exact fun _ s hs => ⟨s, hs, rfl⟩
  | cons c w ih =>
    intro hw s hs
    obtain ⟨t, ht, htr⟩ := htot s hs c (hw c (List.mem_cons_self c w))
    obtain ⟨u, hu, hru⟩ := ih (fun x hx => hw x (List.mem_cons_of_mem c hx)) t ht
    refine ⟨u, hu, ?_⟩
    rw [Dfa.runFrom, htr]
    exact hru

/-- The characterization of the set computed by `Dfa::reachable_states` on a
valid DFA: it contains the start state, sits inside `states`, is closed
under the transition function over the alphabet, and is exactly the set of
states reached by running some word over the alphabet from the start. -/
theorem dfa_reach_spec {S C : Type} [DecidableEq S] [DecidableEq C] [LinearOrder C]
    (d : Dfa S C) (hv : d.Valid) (fuel : Nat) (r : Finset S)
    (hr : d.reachable_statesF fuel = some r) :
    d.start_state ∈ r ∧ (∀ s ∈ r, s ∈ d.states) ∧
    (∀ s ∈ r, ∀ c ∈ d.alphabet, ∃ t, d.transitions (s, c) = some t ∧ t ∈ r) ∧
    (∀ s, s ∈ r ↔ ∃ w, (∀ c ∈ w, c ∈ d.alphabet) ∧
      d.runFrom d.start_state w = some s) := by
  obtain ⟨hstm, htot, -⟩ := (Dfa.valid_iff d).mp hv
  have hstart : d.start_state ∈ r :=
    wlGo_stack_subset (dfaNbrs d) fuel _ ∅ r hr d.start_state (by simp)
  have hrtg_states : ∀ x, Relation.ReflTransGen (wlStep (dfaNbrs d)) d.start_state x →
      x ∈ d.states := by
    intro x h
    induction h with
    | refl => exact hstm
    | tail _ hstep ih =>
      obtain ⟨c, hc, htr⟩ := dfaNbrs_step d _ _ hstep
      obtain ⟨t', ht', htr'⟩ := htot _ ih c hc
      rw [htr] at htr'
      cases htr'
      exact ht'
  have hsub : ∀ s ∈ r, s ∈ d.states := by
    intro s hs
    rcases wlGo_sound (dfaNbrs d) fuel _ ∅ r hr s hs with h | ⟨a, ha, hrtg⟩
    · simp at h
    · rcases List.mem_singleton.mp ha with rfl
      exact hrtg_states s hrtg
  have hnbrs : ∀ s ∈ r, (dfaNbrs d s).isSome :=
    wlGo_nbrs_some (dfaNbrs d) fuel _ ∅ r (by simp) hr
  have hclosed : ∀ s ∈ r, ∀ c ∈ d.alphabet, ∃ t, d.transitions (s, c) = some t ∧ t ∈ r := by
    intro s hs c hc
    obtain ⟨t, ht, htr⟩ := htot s (hsub s hs) c hc
    refine ⟨t, htr, ?_⟩
    exact wlGo_closed (dfaNbrs d) fuel _ ∅ r (by simp) hr s hs t
      (dfaNbrs_step_of d s t c (hnbrs s hs) hc htr)
  have hrtg_word : ∀ x, Relation.ReflTransGen (wlStep (dfaNbrs d)) d.start_state x →
      ∃ w, (∀ c ∈ w, c ∈ d.alphabet) ∧ d.runFrom d.start_state w = some x := by
    intro x h
    induction h with
    | refl => exact ⟨[], by simp, rfl⟩
    | tail _ hstep ih =>
      obtain ⟨w, hw, hrun⟩ := ih
      obtain ⟨c, hc, htr⟩ := dfaNbrs_step d _ _ hstep
      refine ⟨w ++ [c], ?_, ?_⟩
      · intro x hx
        rcases List.mem_append.mp hx with hx | hx
        · exact hw x hx
        · rcases List.mem_singleton.mp hx with rfl
          exact hc
      · rw [Dfa.runFrom_append, hrun]
        simp [Dfa.runFrom, htr]
  refine ⟨hstart, hsub, hclosed, fun s => ⟨?_, ?_⟩⟩
  · intro hs
    rcases wlGo_sound (dfaNbrs d) fuel _ ∅ r hr s hs with h | ⟨a, ha, hrtg⟩
    · simp at h
    · rcases List.mem_singleton.mp ha with rfl
      exact hrtg_word s hrtg
  · rintro ⟨w, hw, hrun⟩
    have : ∀ (w : List C), (∀ c ∈ w, c ∈ d.alphabet) → ∀ s ∈ r,
        ∀ x, d.runFrom s w = some x → x ∈ r := by
      intro w
      induction w with
      | nil =>
        intro _ s hs x hx
        rw [Dfa.runFrom] at hx
        cases hx
        exact hs
      | cons c w ih =>
        intro hw s hs x hx
        obtain ⟨t, htr, htm⟩ := hclosed s hs c (hw c (List.mem_cons_self c w))
        rw [Dfa.runFrom, htr] at hx
        exact ih (fun y hy => hw y (List.mem_cons_of_mem c hy)) t htm x hx
    exact this w hw d.start_state hstart s hrun

/-- Runs of the relabelled DFA mirror runs of the original through the
enumeration `ord` of the reachable set. -/
theorem relabeled_run {S C : Type} [DecidableEq S] [DecidableEq C] [LinearOrder C]
    (d : Dfa S C) (hv : d.Valid) (fuel : Nat) (r : Finset S) (ord : List S)
    (st : Nat) (hr : d.reachable_statesF fuel = some r) (hord : ord.toFinset = r) :
    ∀ (w : List C), (∀ c ∈ w, c ∈ d.alphabet) → ∀ s i, s ∈ r → ord[i]? = some s →
      ∃ x ix, d.runFrom s w = some x ∧ x ∈ r ∧ ord[ix]? = some x ∧
        (relabeledDfa d ord st).runFrom i w = some ix := by
  obtain ⟨-, -, hclosed, -⟩ := dfa_reach_spec d hv fuel r hr
  intro w
  induction w with
  | nil => exact fun _ s i hs hi => ⟨s, i, rfl, hs, hi, rfl⟩
  | cons c w ih =>
    intro hw s i hs hi
    obtain ⟨t, htr, htm⟩ := hclosed s hs c (hw c (List.mem_cons_self c w))
    have htord : t ∈ ord := List.mem_toFinset.mp (hord ▸ htm)
    obtain ⟨it, hit, hitg, -⟩ := idx_mem_some ord t htord
    obtain ⟨x, ix, hx1, hx2, hx3, hx4⟩ :=
      ih (fun y hy => hw y (List.mem_cons_of_mem c hy)) t it htm hitg
    refine ⟨x, ix, ?_, hx2, hx3, ?_⟩
    · rw [Dfa.runFrom, htr]
      exact hx1
    · rw [Dfa.runFrom]
      have htrans : (relabeledDfa d ord st).transitions (i, c) = some it := by
        have h1 : (relabeledDfa d ord st).transitions (i, c)
            = (ord[i]?).bind fun s2 =>
                (d.transitions (s2, c)).bind fun t2 =>
                  ord.findIdx? fun x => decide (x = t2) := rfl
        rw [h1, hi]
        show (d.transitions (s, c)).bind _ = some it
        rw [htr]
        exact hit
      rw [htrans]
      exact hx4

/-- C8: for a valid DFA, relabelling along any enumeration of the reachable
set produces a DFA whose state ids are exactly `0..n` where `n` is the
number of states reachable from the start (the computed reachable set is
exactly the semantically reachable one), and which accepts exactly the same
strings over the alphabet (acceptance per the spec's query, see
`Dfa.accepts`). -/
theorem claim_C8 {S C : Type} [DecidableEq S] [DecidableEq C] [LinearOrder C]
    (d : Dfa S C) (hv : d.Valid) (fuel : Nat) (r : Finset S) (ord : List S)
    (d2 : Dfa Nat C) (hr : d.reachable_statesF fuel = some r) (hnd : ord.Nodup)
    (hord : ord.toFinset = r) (hrel : d.relabel_states ord = some d2) :
    d2.states = Finset.range r.card ∧
    (∀ s, s ∈ r ↔ ∃ w, (∀ c ∈ w, c ∈ d.alphabet) ∧
      d.runFrom d.start_state w = some s) ∧
    ∀ w, (∀ c ∈ w, c ∈ d.alphabet) → d2.accepts w = d.accepts w := by
  obtain ⟨hstart, hsub, hclosed, hsem⟩ := dfa_reach_spec d hv fuel r hr
  cases hfi : (ord.findIdx? fun x => decide (x = d.start_state)) with
  | none =>
    unfold Dfa.relabel_states at hrel
    rw [hfi] at hrel
    cases hrel
  | some st =>
    rw [dfa_relabel_states_eq d ord st hfi] at hrel
    cases hrel
    refine ⟨?_, hsem, ?_⟩
    · show Finset.range ord.length = Finset.range r.card
      rw [← hord, List.toFinset_card_of_nodup hnd]
    · intro w hw
      have hst0 : ord[st]? = some d.start_state := idx_some_getElem ord st _ hfi
      obtain ⟨x, ix, hx1, hx2, hx3, hx4⟩ :=
        relabeled_run d hv fuel r ord st hr hord w hw d.start_state st hstart hst0
      unfold Dfa.accepts
      rw [hx1]
      have hrun2 : (relabeledDfa d ord st).runFrom
          (relabeledDfa d ord st).start_state w = some ix := hx4
      rw [hrun2]
      have hixlt : ix < ord.length := (List.getElem?_eq_some.mp hx3).1
      have hmemiff : ix ∈ (relabeledDfa d ord st).accepting ↔ x ∈ d.accepting := by
        show ix ∈ (Finset.range ord.length).filter _ ↔ _
        rw [Finset.mem_filter, Finset.mem_range]
        constructor
        · rintro ⟨-, hany⟩
          rw [hx3] at hany
          simpa using hany
        · intro hx
          refine ⟨hixlt, ?_⟩
          rw [hx3]
          simpa using hx
      simp only [Option.map_some']
      congr 1
      exact decide_eq_decide.mpr hmemiff

theorem claim_C8_witness :
    ((exDfa.relabel_states (sortedList ((exDfa.reachable_statesF 50).getD ∅))).getD
        exDfa).states
      = Finset.range ((exDfa.reachable_statesF 50).getD ∅).card ∧
    (∀ s, s ∈ (exDfa.reachable_statesF 50).getD ∅ ↔
      ∃ w, (∀ c ∈ w, c ∈ exDfa.alphabet) ∧
        exDfa.runFrom exDfa.start_state w = some s) ∧
    ∀ w, (∀ c ∈ w, c ∈ exDfa.alphabet) →
      ((exDfa.relabel_states (sortedList ((exDfa.reachable_statesF 50).getD ∅))).getD
          exDfa).accepts w = exDfa.accepts w :=
  claim_C8 exDfa (by decide) 50 _ _ _ (option_eq_some_getD _ ∅ (by decide))
    (nodup_sortedList _) (toFinset_sortedList _)
    (option_eq_some_getD _ exDfa (by decide))

/-- Runs of a product DFA are componentwise runs of its factors. -/
theorem productDfa_run {S1 S2 C : Type} [DecidableEq S1] [DecidableEq S2]
    [DecidableEq C] (first : Dfa S1 C) (second : Dfa S2 C)
    (func : Bool → Bool → Bool) (hv1 : first.Valid) (hv2 : second.Valid)
    (hab : first.alphabet = second.alphabet) :
    ∀ (w : List C), (∀ c ∈ w, c ∈ first.alphabet) →
      ∀ sa sb, sa ∈ first.states → sb ∈ second.states →
        ∃ ta tb, first.runFrom sa w = some ta ∧ second.runFrom sb w = some tb ∧
          ta ∈ first.states ∧ tb ∈ second.states ∧
          (productDfa first second func).runFrom (sa, sb) w = some (ta, tb) := by
  obtain ⟨-, htot1, -⟩ := (Dfa.valid_iff first).mp hv1
  obtain ⟨-, htot2, -⟩ := (Dfa.valid_iff second).mp hv2
  intro w
  induction w with
  | nil => exact fun _ sa sb ha hb => ⟨sa, sb, rfl, rfl, ha, hb, rfl⟩
  | cons c w ih =>
    intro hw sa sb ha hb
    have hc : c ∈ first.alphabet := hw c (List.mem_cons_self c w)
    obtain ⟨ta1, hta1, htr1⟩ := htot1 sa ha c hc
    obtain ⟨tb1, htb1, htr2⟩ := htot2 sb hb c (hab ▸ hc)
    obtain ⟨ta, tb, h1, h2, h3, h4, h5⟩ :=
      ih (fun y hy => hw y (List.mem_cons_of_mem c hy)) ta1 tb1 hta1 htb1
    refine ⟨ta, tb, ?_, ?_, h3, h4, ?_⟩
    · rw [Dfa.runFrom, htr1]
      exact h1
    · rw [Dfa.runFrom, htr2]
      exact h2
    · rw [Dfa.runFrom]
      have htrans : (productDfa first second func).transitions ((sa, sb), c)
          = some (ta1, tb1) := by
        show (if (sa, sb) ∈ first.states ×ˢ second.states ∧ c ∈ first.alphabet then _
          else none) = some (ta1, tb1)
        rw [if_pos ⟨Finset.mem_product.mpr ⟨ha, hb⟩, hc⟩]
        show (match first.transitions (sa, c), second.transitions (sb, c) with
          | some t1, some t2 => some (t1, t2)
          | _, _ => none) = some (ta1, tb1)
        rw [htr1, htr2]
      rw [htrans]
      exact h5

theorem productDfa_accepts {S1 S2 C : Type} [DecidableEq S1] [DecidableEq S2]
    [DecidableEq C] (first : Dfa S1 C) (second : Dfa S2 C)
    (func : Bool → Bool → Bool) (hv1 : first.Valid) (hv2 : second.Valid)
    (hab : first.alphabet = second.alphabet)
    (w : List C) (hw : ∀ c ∈ w, c ∈ first.alphabet) :
    ∃ ta tb, first.accepts w = some (decide (ta ∈ first.accepting)) ∧
      second.accepts w = some (decide (tb ∈ second.accepting)) ∧
      (productDfa first second func).accepts w
        = some (func (decide (ta ∈ first.accepting)) (decide (tb ∈ second.accepting))) := by
  obtain ⟨hst1, -, -⟩ := (Dfa.valid_iff first).mp hv1
  obtain ⟨hst2, -, -⟩ := (Dfa.valid_iff second).mp hv2
  obtain ⟨ta, tb, h1, h2, h3, h4, h5⟩ :=
    productDfa_run first second func hv1 hv2 hab w hw
      first.start_state second.start_state hst1 hst2
  refine ⟨ta, tb, ?_, ?_, ?_⟩
  · unfold Dfa.accepts
    rw [h1]
    rfl
  · unfold Dfa.accepts
    rw [h2]
    rfl
  · unfold Dfa.accepts
    have hr : (productDfa first second func).runFrom
        (productDfa first second func).start_state w = some (ta, tb) := h5
    rw [hr]
    simp only [Option.map_some']
    congr 1
    have hmem : (ta, tb) ∈ (productDfa first second func).accepting ↔
        func (decide (ta ∈ first.accepting)) (decide (tb ∈ second.accepting)) = true := by
      show (ta, tb) ∈ (first.states ×ˢ second.states).filter _ ↔ _
      rw [Finset.mem_filter]
      exact ⟨fun h => h.2, fun h => ⟨Finset.mem_product.mpr ⟨h3, h4⟩, h⟩⟩
    rw [decide_eq_decide.mpr hmem]
    exact Bool.decide_coe _

/-- C6: over equal alphabets, the four product specializations accept a
string exactly according to their boolean combinator applied to the factors'
acceptance (acceptance per the spec's query, see `Dfa.accepts`). -/
theorem claim_C6 {S1 S2 C : Type} [DecidableEq S1] [DecidableEq S2] [DecidableEq C]
    (first : Dfa S1 C) (second : Dfa S2 C) (hv1 : first.Valid) (hv2 : second.Valid)
    (hab : first.alphabet = second.alphabet)
    (w : List C) (hw : ∀ c ∈ w, c ∈ first.alphabet) :
    ∃ a b, first.accepts w = some a ∧ second.accepts w = some b ∧
      (∀ u, Dfa.union first second = some u → u.accepts w = some (a || b)) ∧
      (∀ u, Dfa.intersection first second = some u → u.accepts w = some (a && b)) ∧
      (∀ u, Dfa.difference first second = some u → u.accepts w = some (a && !b)) ∧
      (∀ u, Dfa.symmetric_difference first second = some u →
        u.accepts w = some (a != b)) := by
  have key : ∀ (func : Bool → Bool → Bool) (u : Dfa (S1 × S2) C),
      Dfa.product first second func = some u →
      ∃ ta tb, first.accepts w = some (decide (ta ∈ first.accepting)) ∧
        second.accepts w = some (decide (tb ∈ second.accepting)) ∧
        u.accepts w = some (func (decide (ta ∈ first.accepting))
          (decide (tb ∈ second.accepting))) := by
    intro func u hu
    unfold Dfa.product at hu
    rw [if_pos hab] at hu
    cases hu
    exact productDfa_accepts first second func hv1 hv2 hab w hw
  obtain ⟨ta, tb, h1, h2, -⟩ :=
    productDfa_accepts first second (fun a b => a || b) hv1 hv2 hab w hw
  refine ⟨_, _, h1, h2, fun u hu => ?_, fun u hu => ?_, fun u hu => ?_, fun u hu => ?_⟩
  all_goals {
    obtain ⟨ta', tb', h1', h2', h3'⟩ := key _ u hu
    rw [h1] at h1'
    rw [h2] at h2'
    rw [← Option.some.inj h1', ← Option.some.inj h2'] at h3'
    exact h3'
  }

theorem claim_C6_witness :
    ∃ a b, exDfa.accepts [0] = some a ∧ exDfa.complement.accepts [0] = some b ∧
      (∀ u, Dfa.union exDfa exDfa.complement = some u →
        u.accepts [0] = some (a || b)) ∧
      (∀ u, Dfa.intersection exDfa exDfa.complement = some u →
        u.accepts [0] = some (a && b)) ∧
      (∀ u, Dfa.difference exDfa exDfa.complement = some u →
        u.accepts [0] = some (a && !b)) ∧
      (∀ u, Dfa.symmetric_difference exDfa exDfa.complement = some u →
        u.accepts [0] = some (a != b)) :=
  claim_C6 exDfa exDfa.complement (by decide) (by decide) rfl [0] (by decide)

theorem Dfa.complement_states {S C : Type} [DecidableEq S] (d : Dfa S C) :
    d.complement.states = d.states := rfl

theorem Dfa.complement_alphabet {S C : Type} [DecidableEq S] (d : Dfa S C) :
    d.complement.alphabet = d.alphabet := rfl

theorem Dfa.complement_transitions {S C : Type} [DecidableEq S] (d : Dfa S C) :
    d.complement.transitions = d.transitions := rfl

theorem productDfa_transitions_eq {S1 S2 C : Type} [DecidableEq S1] [DecidableEq S2]
    [DecidableEq C] (first : Dfa S1 C) (second : Dfa S2 C)
    (func : Bool → Bool → Bool) (p : S1 × S2) (c : C) :
    (productDfa first second func).transitions (p, c) =
      if p ∈ first.states ×ˢ second.states ∧ c ∈ first.alphabet then
        match first.transitions (p.1, c), second.transitions (p.2, c) with
        | some t1, some t2 => some (t1, t2)
        | _, _ => none
      else none := rfl

/-- C7: the complement's accepting set is `states \ accepting` with the other
fields unchanged; on a valid DFA it accepts exactly the strings (over the
alphabet) the original rejects (acceptance per the spec's query, see
`Dfa.accepts`); and the double complement is language-equivalent to the
original as computed by `Dfa::equivalent`. -/
theorem claim_C7 {S C : Type} [DecidableEq S] [LinearOrder C]
    (d : Dfa S C) (hv : d.Valid) :
    d.complement.accepting = d.states \ d.accepting ∧
    (∀ w, (∀ c ∈ w, c ∈ d.alphabet) →
      ∃ b, d.accepts w = some b ∧ d.complement.accepts w = some (!b)) ∧
    ∀ fuel b, Dfa.equivalentF fuel d.complement.complement d = some b → b = true := by
  obtain ⟨hstm, htot, -⟩ := (Dfa.valid_iff d).mp hv
  refine ⟨rfl, ?_, ?_⟩
  · intro w hw
    obtain ⟨t, ht, hrun⟩ := Dfa.valid_runFrom d hv w hw d.start_state hstm
    refine ⟨decide (t ∈ d.accepting), ?_, ?_⟩
    · unfold Dfa.accepts
      rw [hrun]
      rfl
    · unfold Dfa.accepts
      have hr2 : d.complement.runFrom d.complement.start_state w = some t := by
        show Dfa.runFrom { d with accepting := d.states \ d.accepting }
          d.start_state w = some t
        rw [runFrom_accepting_irrel]
        exact hrun
      rw [hr2]
      simp only [Option.map_some']
      congr 1
      show decide (t ∈ d.states \ d.accepting) = !decide (t ∈ d.accepting)
      have hiff : (t ∈ d.states \ d.accepting) ↔ ¬ (t ∈ d.accepting) := by
        rw [Finset.mem_sdiff]
        exact ⟨fun h => h.2, fun h => ⟨ht, h⟩⟩
      rw [decide_eq_decide.mpr hiff, decide_not]
  · intro fuel b hb
    have hb2 : Dfa.is_emptyF fuel
        (productDfa d.complement.complement d (fun a b => a != b)) = some b := by
      unfold Dfa.equivalentF Dfa.symmetric_difference Dfa.product at hb
      rw [if_pos (show d.complement.complement.alphabet = d.alphabet from rfl)] at hb
      rw [Option.some_bind] at hb
      exact hb
    unfold Dfa.is_emptyF at hb2
    cases hR : (productDfa d.complement.complement d
        (fun a b => a != b)).reachable_statesF fuel with
    | none => rw [hR] at hb2; cases hb2
    | some R =>
      rw [hR] at hb2
      simp only [Option.map_some'] at hb2
      have hstep : ∀ p q : S × S, p.1 = p.2 ∧ p.1 ∈ d.states →
          wlStep (dfaNbrs (productDfa d.complement.complement d
            (fun a b => a != b))) p q →
          q.1 = q.2 ∧ q.1 ∈ d.states := by
        intro p q hp hpq
        obtain ⟨c, hc, htr⟩ := dfaNbrs_step _ p q hpq
        rcases hp with ⟨hdiag, hmem⟩
        rw [productDfa_transitions_eq] at htr
        simp only [Dfa.complement_states, Dfa.complement_alphabet,
          Dfa.complement_transitions] at htr
        by_cases hcond : p ∈ d.states ×ˢ d.states ∧ c ∈ d.alphabet
        · rw [if_pos hcond] at htr
          obtain ⟨t, ht, htr'⟩ := htot p.1 hmem c hcond.2
          rw [← hdiag, htr'] at htr
          cases htr
          exact ⟨rfl, ht⟩
        · rw [if_neg hcond] at htr
          cases htr
      have hrtg : ∀ x : S × S,
          Relation.ReflTransGen (wlStep (dfaNbrs (productDfa d.complement.complement d
            (fun a b => a != b)))) (d.start_state, d.start_state) x →
          x.1 = x.2 ∧ x.1 ∈ d.states := by
        intro x h
        induction h with
        | refl => exact ⟨rfl, hstm⟩
        | tail _ hst ih => exact hstep _ _ ih hst
      have hall : ∀ s ∈ R, s ∉ (productDfa d.complement.complement d
          (fun a b => a != b)).accepting := by
        intro s hs hacc
        have hInv : s.1 = s.2 ∧ s.1 ∈ d.states := by
          rcases wlGo_sound _ fuel _ ∅ R hR s hs with h | ⟨a, ha, hr2⟩
          · simp at h
          · rcases List.mem_singleton.mp ha with rfl
            exact hrtg s hr2
        obtain ⟨hdiag, hmem⟩ := hInv
        have hxor : (decide (s.1 ∈ d.complement.complement.accepting)
            != decide (s.2 ∈ d.accepting)) = true :=
          (Finset.mem_filter.mp hacc).2
        have hc2acc : s.1 ∈ d.complement.complement.accepting ↔ s.1 ∈ d.accepting := by
          show s.1 ∈ d.states \ (d.states \ d.accepting) ↔ _
          rw [Finset.mem_sdiff, Finset.mem_sdiff]
          constructor
          · rintro ⟨h1, h2⟩
            by_contra hna
            exact h2 ⟨h1, hna⟩
          · intro h
            exact ⟨hmem, fun hx => hx.2 h⟩
        rw [decide_eq_decide.mpr hc2acc] at hxor
        have hne : decide (s.1 ∈ d.accepting) ≠ decide (s.2 ∈ d.accepting) :=
          bne_iff_ne.mp hxor
        exact hne (by rw [hdiag])
      rw [← Option.some.inj hb2]
      exact decide_eq_true hall

theorem claim_C7_witness :
    exDfa.complement.accepting = exDfa.states \ exDfa.accepting ∧
    (∀ w, (∀ c ∈ w, c ∈ exDfa.alphabet) →
      ∃ b, exDfa.accepts w = some b ∧ exDfa.complement.accepts w = some (!b)) ∧
    ∀ fuel b, Dfa.equivalentF fuel exDfa.complement.complement exDfa = some b →
      b = true :=
  claim_C7 exDfa (by decide)

/-! The epsilon closure and the subset construction. -/

theorem epsNbrs_step_iff {S C : Type} [LinearOrder S] (n : Nfa S C) (a b : S) :
    wlStep (epsNbrs n) a b ↔ b ∈ (n.epsilon_transitions a).getD ∅ := by
  constructor
  · rintro ⟨ns, hns, hb⟩
    have : ns = ((n.epsilon_transitions a).map sortedList).getD [] :=
      (Option.some.inj hns).symm
    subst this
    cases he : n.epsilon_transitions a with
    | none => simp [he] at hb
    | some t =>
      simp only [he, Option.map_some', Option.getD_some] at hb ⊢
      exact (mem_sortedList t b).mp hb
  · intro hb
    refine ⟨((n.epsilon_transitions a).map sortedList).getD [], rfl, ?_⟩
    cases he : n.epsilon_transitions a with
    | none => simp [he] at hb
    | some t =>
      simp only [he, Option.map_some', Option.getD_some] at hb ⊢
      exact (mem_sortedList t b).mpr hb

theorem epsilon_closureF_spec {S C : Type} [LinearOrder S] (n : Nfa S C)
    (fuel : Nat) (init : List S) (e : Finset S)
    (h : n.epsilon_closureF fuel init = some e) :
    ∀ x, x ∈ e ↔ ∃ a ∈ init, EpsReach n a x := by
  intro x
  constructor
  · intro hx
    rcases wlGo_sound (epsNbrs n) fuel init ∅ e h x hx with h' | ⟨a, ha, hr⟩
    · simp at h'
    · exact ⟨a, ha, Relation.ReflTransGen.mono
        (fun u v hs => (epsNbrs_step_iff n u v).mp hs) hr⟩
  · rintro ⟨a, ha, hr⟩
    exact wlGo_complete (epsNbrs n) fuel init e h a ha x
      (Relation.ReflTransGen.mono (fun u v hs => (epsNbrs_step_iff n u v).mpr hs) hr)

/-- Two successful epsilon closures of initial lists with the same elements
are equal, whatever the fuels. -/
theorem epsilon_closureF_det {S C : Type} [LinearOrder S] (n : Nfa S C)
    (f1 f2 : Nat) (init1 init2 : List S) (e1 e2 : Finset S)
    (hinit : ∀ a, a ∈ init1 ↔ a ∈ init2)
    (h1 : n.epsilon_closureF f1 init1 = some e1)
    (h2 : n.epsilon_closureF f2 init2 = some e2) : e1 = e2 := by
  ext x
  rw [epsilon_closureF_spec n f1 init1 e1 h1 x, epsilon_closureF_spec n f2 init2 e2 h2 x]
  constructor
  · rintro ⟨a, ha, hr⟩
    exact ⟨a, (hinit a).mp ha, hr⟩
  · rintro ⟨a, ha, hr⟩
    exact ⟨a, (hinit a).mpr ha, hr⟩

theorem dfaStepF_spec {S C : Type} [LinearOrder S] (fuel : Nat) (n : Nfa S C)
    (sub : Finset S) (c : C) (t : Finset S) (h : dfaStepF fuel n sub c = some t) :
    ∀ x, x ∈ t ↔ ∃ s ∈ sub, ∃ u ∈ (n.transitions (s, c)).getD ∅, EpsReach n u x := by
  intro x
  rw [epsilon_closureF_spec n fuel _ t h x]
  constructor
  · rintro ⟨a, ha, hr⟩
    have := (mem_sortedList _ a).mp ha
    obtain ⟨s, hs, hu⟩ := Finset.mem_biUnion.mp this
    exact ⟨s, hs, a, hu, hr⟩
  · rintro ⟨s, hs, u, hu, hr⟩
    exact ⟨u, (mem_sortedList _ u).mpr (Finset.mem_biUnion.mpr ⟨s, hs, hu⟩), hr⟩

/-- Two successful subset-construction steps agree, whatever the fuels. -/
theorem dfaStepF_det {S C : Type} [LinearOrder S] (f1 f2 : Nat) (n : Nfa S C)
    (sub : Finset S) (c : C) (t1 t2 : Finset S)
    (h1 : dfaStepF f1 n sub c = some t1) (h2 : dfaStepF f2 n sub c = some t2) :
    t1 = t2 := by
  ext x
  rw [dfaStepF_spec f1 n sub c t1 h1 x, dfaStepF_spec f2 n sub c t2 h2 x]

/-- Totality of the subset-construction DFA: every discovered subset has a
successful subset-construction target inside the discovered set for every
alphabet symbol. -/
theorem subsetDfa_trans_total {S C : Type} [LinearOrder S] [LinearOrder C]
    (fuel : Nat) (n : Nfa S C) (start : Finset S) (v : Finset (Finset S))
    (hwl : wlGo (subsetNbrs fuel n) fuel [start] ∅ = some v) :
    ∀ sub ∈ v, ∀ c ∈ n.alphabet, ∃ t, dfaStepF fuel n sub c = some t ∧ t ∈ v ∧
      (subsetDfa fuel n start v).transitions (sub, c) = some t := by
  have hnbrs : ∀ a ∈ v, (subsetNbrs fuel n a).isSome :=
    wlGo_nbrs_some _ fuel _ ∅ v (by simp) hwl
  intro sub hsub c hc
  obtain ⟨ns, hns⟩ := Option.isSome_iff_exists.mp (hnbrs sub hsub)
  obtain ⟨t, htmem, ht⟩ :=
    (mapM_option_spec _ _ ns hns).2 c ((mem_sortedList _ c).mpr hc)
  refine ⟨t, ht, ?_, ?_⟩
  · exact wlGo_closed _ fuel _ ∅ v (by simp) hwl sub hsub t ⟨ns, hns, htmem⟩
  · show (if sub ∈ v ∧ c ∈ n.alphabet then dfaStepF fuel n sub c else none) = some t
    rw [if_pos ⟨hsub, hc⟩]
    exact ht

/-- C5: on a valid NFA, the subset-construction DFA satisfies the structural
invariants — `validate()` returns `true` — and a symbol with no outgoing NFA
edge from any member of a subset maps that subset to the empty subset (the
non-accepting sink). -/
theorem claim_C5 {S C : Type} [LinearOrder S] [LinearOrder C] (n : Nfa S C)
    (_hv : n.Valid) (fuel : Nat) (D : Dfa (Finset S) C)
    (hD : nfa_to_dfaF fuel n = some D) :
    D.validate = true ∧
    ∀ sub ∈ D.states, ∀ c ∈ n.alphabet,
      (∀ s ∈ sub, n.transitions (s, c) = none) → D.transitions (sub, c) = some ∅ := by
  unfold nfa_to_dfaF at hD
  cases hc1 : n.epsilon_closureF fuel [n.start_state] with
  | none => rw [hc1] at hD; cases hD
  | some start =>
    rw [hc1, Option.some_bind] at hD
    cases hwl : wlGo (subsetNbrs fuel n) fuel [start] ∅ with
    | none => rw [hwl] at hD; cases hD
    | some v =>
      rw [hwl] at hD
      simp only [Option.map_some'] at hD
      cases hD
      have htot := subsetDfa_trans_total fuel n start v hwl
      constructor
      · refine (Dfa.valid_iff (subsetDfa fuel n start v)).mpr ⟨?_, ?_, ?_⟩
        · exact wlGo_stack_subset _ fuel _ ∅ v hwl start (by simp)
        · intro sub hsub c hc
          obtain ⟨t, -, htv, htr⟩ := htot sub hsub c hc
          exact ⟨t, htv, htr⟩
        · exact fun s hs => (Finset.mem_filter.mp hs).1
      · intro sub hsub c hc hnone
        obtain ⟨t, hstep, -, htr⟩ := htot sub hsub c hc
        have ht_empty : t = ∅ := by
          ext x
          simp only [Finset.not_mem_empty, iff_false]
          rw [dfaStepF_spec fuel n sub c t hstep x]
          rintro ⟨s, hs, u, hu, -⟩
          rw [hnone s hs] at hu
          exact absurd hu (by simp)
        rw [htr, ht_empty]

theorem claim_C5_witness :
    ((nfa_to_dfaF 50 exNfa).getD junkSubsetDfa).validate = true ∧
    ∀ sub ∈ ((nfa_to_dfaF 50 exNfa).getD junkSubsetDfa).states,
      ∀ c ∈ exNfa.alphabet, (∀ s ∈ sub, exNfa.transitions (s, c) = none) →
        ((nfa_to_dfaF 50 exNfa).getD junkSubsetDfa).transitions (sub, c) = some ∅ :=
  claim_C5 exNfa (by decide) 50 _ (option_eq_some_getD _ junkSubsetDfa (by decide))

/-- The subset sequence traversed by `Nfa::parse_string` coincides with the
run of the subset-construction DFA, and stays inside the discovered set. -/
theorem subset_fold_run {S C : Type} [LinearOrder S] [LinearOrder C]
    (f1 f2 : Nat) (n : Nfa S C) (start : Finset S) (v : Finset (Finset S))
    (hwl : wlGo (subsetNbrs f1 n) f1 [start] ∅ = some v) :
    ∀ (w : List C), (∀ c ∈ w, c ∈ n.alphabet) → ∀ sub ∈ v, ∀ fin,
      w.foldlM (fun states c => dfaStepF f2 n states c) sub = some fin →
      (subsetDfa f1 n start v).runFrom sub w = some fin ∧ fin ∈ v := by
  have htot := subsetDfa_trans_total f1 n start v hwl
  intro w
  induction w with
  | nil =>
    intro _ sub hsub fin hf
    rw [List.foldlM_nil] at hf
    cases hf
    exact ⟨rfl, hsub⟩
  | cons c w ih =>
    intro hw sub hsub fin hf
    rw [List.foldlM_cons] at hf
    have hc : c ∈ n.alphabet := hw c (List.mem_cons_self c w)
    cases hstep : dfaStepF f2 n sub c with
    | none => rw [hstep] at hf; cases hf
    | some next2 =>
      rw [hstep] at hf
      simp only [Option.bind_eq_bind, Option.some_bind] at hf
      obtain ⟨t1, ht1, ht1v, htr⟩ := htot sub hsub c hc
      have hEq : next2 = t1 := dfaStepF_det f2 f1 n sub c next2 t1 hstep ht1
      obtain ⟨hrun, hfin⟩ :=
        ih (fun y hy => hw y (List.mem_cons_of_mem c hy)) next2 (hEq ▸ ht1v) fin hf
      refine ⟨?_, hfin⟩
      rw [Dfa.runFrom, htr, ← hEq]
      exact hrun

/-- C3: on a valid NFA, whenever the simulation `Nfa::parse_string` returns
a verdict on a word over the alphabet, the subset-construction DFA accepts
that word with the same verdict (acceptance per the spec's query, see
`Dfa.accepts`). -/
theorem claim_C3 {S C : Type} [LinearOrder S] [LinearOrder C] (n : Nfa S C)
    (_hv : n.Valid) (f1 f2 : Nat) (D : Dfa (Finset S) C)
    (hD : nfa_to_dfaF f1 n = some D) (w : List C)
    (hw : ∀ c ∈ w, c ∈ n.alphabet) (b : Bool)
    (hp : n.parse_stringF f2 w = some b) : D.accepts w = some b := by
  unfold nfa_to_dfaF at hD
  cases hc1 : n.epsilon_closureF f1 [n.start_state] with
  | none => rw [hc1] at hD; cases hD
  | some start1 =>
    rw [hc1, Option.some_bind] at hD
    cases hwl : wlGo (subsetNbrs f1 n) f1 [start1] ∅ with
    | none => rw [hwl] at hD; cases hD
    | some v =>
      rw [hwl] at hD
      simp only [Option.map_some'] at hD
      cases hD
      unfold Nfa.parse_stringF at hp
      cases hc2 : n.epsilon_closureF f2 [n.start_state] with
      | none => rw [hc2] at hp; cases hp
      | some start2 =>
        rw [hc2, Option.some_bind] at hp
        have hfold_eq : w.foldlM (fun states c => n.epsilon_closureF f2
              (sortedList (states.biUnion fun s => (n.transitions (s, c)).getD ∅)))
              start2
            = w.foldlM (fun states c => dfaStepF f2 n states c) start2 := rfl
        rw [hfold_eq] at hp
        cases hfold : w.foldlM (fun states c => dfaStepF f2 n states c) start2 with
        | none => rw [hfold] at hp; cases hp
        | some fin =>
          rw [hfold] at hp
          simp only [Option.map_some'] at hp
          have hbval := Option.some.inj hp
          have hse : start1 = start2 :=
            epsilon_closureF_det n f1 f2 _ _ _ _ (fun a => Iff.rfl) hc1 hc2
          have hstart_v : start1 ∈ v :=
            wlGo_stack_subset _ f1 _ ∅ v hwl start1 (by simp)
          obtain ⟨hrun, hfin⟩ := subset_fold_run f1 f2 n start1 v hwl w hw start1
            hstart_v fin (by rw [hse]; exact hfold)
          unfold Dfa.accepts
          have hrun2 : (subsetDfa f1 n start1 v).runFrom
              (subsetDfa f1 n start1 v).start_state w = some fin := hrun
          rw [hrun2]
          simp only [Option.map_some']
          rw [← hbval]
          congr 1
          apply decide_eq_decide.mpr
          show fin ∈ v.filter _ ↔ _
          rw [Finset.mem_filter]
          constructor
          · rintro ⟨-, h⟩
            exact of_decide_eq_true h
          · intro h
            exact ⟨hfin, decide_eq_true h⟩

theorem claim_C3_witness :
    ((nfa_to_dfaF 50 exNfa).getD junkSubsetDfa).accepts [0] = some true :=
  claim_C3 exNfa (by decide) 50 50 _
    (option_eq_some_getD _ junkSubsetDfa (by decide)) [0] (by decide) true (by decide)

theorem splitLoop_some_true (check : Nat → Option Bool) (l : List Nat)
    (h : splitLoop check l = some true) : ∃ i ∈ l, check i = some true := by
  induction l with
  | nil => simp [splitLoop] at h
  | cons i rest ih =>
    rw [splitLoop] at h
    cases hc : check i with
    | none => rw [hc] at h; cases h
    | some b =>
      cases b with
      | true => exact ⟨i, List.mem_cons_self i rest, hc⟩
      | false =>
        rw [hc] at h
        obtain ⟨j, hj, hcj⟩ := ih h
        exact ⟨j, List.mem_cons_of_mem i hj, hcj⟩

/-- The `Star` arm of `Regex::parse_string` can never return `true`: its
recurrence has no base case accepting the empty remainder, so every
derivation of `true` would need an infinite descent. -/
theorem star_parse_never_true {C : Type} [DecidableEq C] (fuel : Nat)
    (r : Regex C) (w : List C) :
    Regex.parse_stringF fuel (Regex.Star r) w ≠ some true := by
  induction fuel generalizing w with
  | zero => simp [Regex.parse_stringF]
  | succ f ih =>
    rw [Regex.parse_stringF]
    intro hcontra
    obtain ⟨i, -, hcheck⟩ := splitLoop_some_true _ _ hcontra
    cases hb : Regex.parse_stringF f r (w.take i) with
    | none => rw [hb] at hcheck; cases hcheck
    | some bl =>
      rw [hb, Option.some_bind] at hcheck
      cases bl with
      | false => simp at hcheck
      | true =>
        rw [if_pos rfl] at hcheck
        exact ih _ hcheck

/-- C1: at the failing input `r = Star(Character 0)`, `Σ = {0}`, the compiled
DFA accepts both `[0]` and the empty string, while the reference matcher
`Regex::parse_string` terminates with `false` on both (its `Star` arm lacks
the base case accepting the empty remainder and never returns `true`, see
`star_parse_never_true`), so the two disagree. -/
theorem claim_C1 :
    (regex_to_dfaF 60 (Regex.Star (Regex.Character 0)) ({0} : Finset Nat)).isSome
      = true ∧
    ((regex_to_dfaF 60 (Regex.Star (Regex.Character 0)) ({0} : Finset Nat)).map
      fun d => d.accepts [0]) = some (some true) ∧
    ((regex_to_dfaF 60 (Regex.Star (Regex.Character 0)) ({0} : Finset Nat)).map
      fun d => d.accepts []) = some (some true) ∧
    Regex.parse_stringF 60 (Regex.Star (Regex.Character 0)) [0] = some false ∧
    Regex.parse_stringF 60 (Regex.Star (Regex.Character 0)) [] = some false :=
  ⟨by decide, by decide, by decide, by decide, by decide⟩

end RegularApp
